import Mathlib

/-!
Verification of the token-cache / shuffle / magic-prime core of
`make_data.py` (MyRWKV repository).

The Python source is shallowly embedded: files are modelled as byte lists
(`List Nat`, each element `< 256`), `struct.pack`/`struct.unpack` become
explicit little-endian encoders/decoders, fallible operations return
`Except`/`Option`, and the stateful builders become explicit state records.
-/

namespace MakeData

/-! ## Little-endian fixed-width byte encoding (struct.pack "<H", "<Q", "<I") -/

/-- Little-endian encoding of `n` into exactly `w` bytes (low byte first).
Mirrors `struct.pack` for an unsigned field of width `w`, assuming `n < 256^w`. -/
def leEnc : Nat → Nat → List Nat
  | 0, _ => []
  | w + 1, n => n % 256 :: leEnc w (n / 256)

/-- Little-endian decoding of a byte list (low byte first).
Mirrors `struct.unpack` for an unsigned field. -/
def leDec : List Nat → Nat
  | [] => 0
  | b :: bs => b + 256 * leDec bs

/-- `struct.pack("<H", t)` for a single Python int `t`: two little-endian
bytes; raises (returns `none`) when `t` is not in `[0, 65535]`. -/
def packH1 (t : Int) : Option (List Nat) :=
  if 0 ≤ t ∧ t ≤ 65535 then some (leEnc 2 t.toNat) else none

/-- `struct.pack(f"<{len(tokens)}H", *tokens)`: packs every token as a
little-endian `uint16`, failing if any token is out of range. -/
def packH (tokens : List Int) : Option (List Nat) :=
  match tokens with
  | [] => some []
  | t :: ts => do
      let b ← packH1 t
      let rest ← packH ts
      pure (b ++ rest)

/-- `struct.pack("<QI", off, len)`: 8-byte offset then 4-byte length,
little-endian; raises (returns `none`) if a field overflows its width. -/
def packQI (off len : Nat) : Option (List Nat) :=
  if off < 2 ^ 64 ∧ len < 2 ^ 32 then some (leEnc 8 off ++ leEnc 4 len) else none

/-- Decode one 12-byte offset record: `struct.unpack("<QI", bytes)`. -/
def unpackQI (b : List Nat) : Nat × Nat :=
  (leDec (b.take 8), leDec ((b.drop 8).take 4))

/-! ## TokenizedDatasetBuilder -/

/-- The observable state of a `TokenizedDatasetBuilder`: the bytes written so
far to the `.tokens` and `.offsets` files, plus the two counters. -/
structure BuilderState where
  tokenBytes : List Nat
  offsetBytes : List Nat
  current_offset : Nat
  doc_count : Nat
deriving Repr, DecidableEq

/-- The freshly opened builder: both files empty, counters zero. -/
def BuilderState.init : BuilderState :=
  { tokenBytes := [], offsetBytes := [], current_offset := 0, doc_count := 0 }

/-- `TokenizedDatasetBuilder.add_tokens`, statement by statement:
pack the token sequence (this is where an out-of-range id raises, before any
byte is written), append it to the token file, pack and append the offset
record, then bump both counters. An exception anywhere short-circuits to
`Except.error`, leaving the writes made so far in place. -/
def add_tokens (s : BuilderState) (tokens : List Int) : Except Unit BuilderState :=
  match packH tokens with
  | none => Except.error ()
  | some token_bytes =>
    let s1 := { s with tokenBytes := s.tokenBytes ++ token_bytes }
    match packQI s1.current_offset tokens.length with
    | none => Except.error ()
    | some offset_record =>
      let s2 := { s1 with offsetBytes := s1.offsetBytes ++ offset_record }
      Except.ok { s2 with current_offset := s2.current_offset + tokens.length,
                          doc_count := s2.doc_count + 1 }

/-- `TokenizedDatasetBuilder.finalize`: closes the files and returns
`(doc_count, current_offset)`. -/
def finalize (s : BuilderState) : Nat × Nat :=
  (s.doc_count, s.current_offset)

/-- A run of the builder: `add_tokens` once per document, in order; the first
exception aborts the run. -/
def runBuilder (s : BuilderState) : List (List Int) → Except Unit BuilderState
  | [] => Except.ok s
  | d :: ds =>
    match add_tokens s d with
    | Except.error e => Except.error e
    | Except.ok s' => runBuilder s' ds

/-! ## TokenizedDatasetReader -/

/-- The reader's in-memory loop: read 12-byte records until the file is
exhausted. An empty read terminates; a trailing fragment of 1–11 bytes makes
`struct.unpack` raise, modelled as `none`. -/
def parseOffsets (b : List Nat) : Option (List (Nat × Nat)) :=
  if h : b = [] then some []
  else if b.length < 12 then none
  else do
    let rest ← parseOffsets (b.drop 12)
    pure (unpackQI (b.take 12) :: rest)
termination_by b.length
decreasing_by
  simp only [List.length_drop]
  have : b.length ≠ 0 := fun hl => h (List.eq_nil_of_length_eq_zero hl)
  omega

/-- The observable state of a `TokenizedDatasetReader` after `__init__`:
the decoded offset index and the token-file bytes. -/
structure Reader where
  doc_offsets : List (Nat × Nat)
  tokenBytes : List Nat
deriving Repr, DecidableEq

/-- `TokenizedDatasetReader.__init__` over the two files' contents; `none`
models the constructor raising on a malformed offset file. -/
def openReader (tokenBytes offsetBytes : List Nat) : Option Reader := do
  let offs ← parseOffsets offsetBytes
  pure { doc_offsets := offs, tokenBytes := tokenBytes }

/-- Python list indexing `l[i]`: non-negative indices are bounds-checked,
negative indices `-len ≤ i < 0` resolve to `l[len + i]`, anything else
raises `IndexError` (`none`). -/
def pyGet {α : Type} (l : List α) (i : Int) : Option α :=
  if 0 ≤ i then l.get? i.toNat
  else if -(l.length : Int) ≤ i then l.get? (l.length - (-i).toNat)
  else none

/-- `np.frombuffer(bytes, dtype=np.uint16)`: reinterpret consecutive byte
pairs as little-endian unsigned 16-bit values; raises (`none`) when the
buffer length is odd. -/
def decode16s : List Nat → Option (List Int)
  | [] => some []
  | [_] => none
  | b0 :: b1 :: bs => do
      let rest ← decode16s bs
      pure ((b0 + 256 * b1 : Nat) :: rest)

/-- `TokenizedDatasetReader.get_doc_tokens`: index the offset list (Python
semantics), seek to `offset * 2`, read `length * 2` bytes, reinterpret as
`uint16`. -/
def get_doc_tokens (r : Reader) (doc_idx : Int) : Option (List Int) := do
  let (offset, length) ← pyGet r.doc_offsets doc_idx
  let token_bytes := (r.tokenBytes.drop (offset * 2)).take (length * 2)
  decode16s token_bytes

/-- `TokenizedDatasetReader.__len__`. -/
def Reader.len (r : Reader) : Nat := r.doc_offsets.length

/-! ## check_temp_files

Files are modelled by their contents: `none` is a missing file, `some bytes`
an existing one. `of.read(12)` returns up to 12 bytes; an empty read returns
`False` directly, a 1–11 byte read makes `struct.unpack` raise (caught,
`False`). `tf.read(length * 2)` returns fewer bytes when the file is short,
failing the explicit length comparison. -/

def check_temp_files (tok off : Option (List Nat)) : Bool :=
  match tok, off with
  | some tb, some ob =>
    let offset_bytes := ob.take 12
    if offset_bytes.length = 0 then false
    else if offset_bytes.length ≠ 12 then false
    else
      let length := (unpackQI offset_bytes).2
      decide ((tb.take (length * 2)).length = length * 2)
  | _, _ => false

/-! ## is_prime and the magic-prime scan -/

/-- The `while i * i <= n` trial-division loop of `is_prime`, testing
divisors `i` and `i + 2` and stepping by 6. -/
def trialLoop (n i : Nat) : Bool :=
  if i * i ≤ n then
    if n % i = 0 ∨ n % (i + 2) = 0 then false
    else trialLoop n (i + 6)
  else true
termination_by n + 2 - i
decreasing_by
  have hi : i ≤ n := by
    rcases Nat.eq_zero_or_pos i with h0 | h0
    · omega
    · calc i ≤ i * i := Nat.le_mul_of_pos_left i h0
      _ ≤ n := by assumption
  omega

/-- `is_prime` from `make_data.py`: small cases, then the 6k±1 wheel. -/
def is_prime (n : Nat) : Bool :=
  if n ≤ 1 then false
  else if n ≤ 3 then true
  else if n % 2 = 0 ∨ n % 3 = 0 then false
  else trialLoop n 5

/-- The `for i in range(start, 0, -3)` scan: first prime among
`start, start - 3, …` (candidates stay ≥ 1), else no result. -/
def scanDown (i : Nat) : Option Nat :=
  if i = 0 then none
  else if is_prime i then some i
  else scanDown (i - 3)
termination_by i
decreasing_by omega

/-- The `magic_prime` computation of `__main__`: guarded by
`data_size >= ctx_len * 3`, then `n_chunk = data_size // ctx_len - 1`,
`start = n_chunk - ((n_chunk - 2) % 3)`, then the downward scan.
(Within the guard and for `ctx_len ≥ 1`, `n_chunk ≥ 2`, so Nat subtraction
and `%` agree with Python.) -/
def magicPrime (data_size ctx_len : Nat) : Option Nat :=
  if ctx_len * 3 ≤ data_size then
    let n_chunk := data_size / ctx_len - 1
    let start := n_chunk - (n_chunk - 2) % 3
    scanDown start
  else none

/-! ## Temp-prefix derivation (`process_data`)

`pathlib.Path(p).stem`: the last non-empty `/`-separated component, with the
final `.suffix` removed when the last dot sits at index > 0 of the name. -/

/-- Split a character list on a separator (empty groups kept). -/
def splitChars (sep : Char) : List Char → List (List Char)
  | [] => [[]]
  | c :: rest =>
    match splitChars sep rest with
    | [] => [[]]
    | g :: gs => if c = sep then [] :: g :: gs else (c :: g) :: gs

/-- Index of the last `'.'` in a name, if any. -/
def lastDotIdx : List Char → Option Nat
  | [] => none
  | c :: rest =>
    match lastDotIdx rest with
    | some k => some (k + 1)
    | none => if c = '.' then some 0 else none

/-- `Path(p).name` as characters: last non-empty component. -/
def pathNameChars (p : String) : List Char :=
  ((splitChars '/' p.toList).filter (fun g => g ≠ [])).getLastD []

/-- `Path(p).stem`: the name is truncated at its last dot when that dot is
neither the leading nor the trailing character of the name. -/
def pathStem (p : String) : String :=
  let name := pathNameChars p
  match lastDotIdx name with
  | some k => if 0 < k ∧ k < name.length - 1 then ⟨name.take k⟩ else ⟨name⟩
  | none => ⟨name⟩

/-- The cache identity (`temp_prefix`) derived in `process_data`:
`{stem(in_file)}_temp_{stem(vocab_file)}` with a custom vocabulary,
`{stem(in_file)}_temp` without. -/
def deriveTempName (in_file : String) (vocab_file : Option String) : String :=
  match vocab_file with
  | some v => pathStem in_file ++ "_temp_" ++ pathStem v
  | none => pathStem in_file ++ "_temp"

/-! ## MMapIndexedDatasetBuilder and the Phase-2 driver -/

/-- Observable state of `MMapIndexedDatasetBuilder` (dtype `uint16`). -/
structure MMapBuilderState where
  dataBytes : List Nat
  sizes : List Nat
  doc_idx : List Nat
deriving Repr, DecidableEq

/-- `MMapIndexedDatasetBuilder.__init__`. -/
def MMapBuilderState.init : MMapBuilderState :=
  { dataBytes := [], sizes := [], doc_idx := [0] }

/-- `add_item`: write the array's bytes (uint16 little-endian) and record its
size. -/
def mmap_add_item (s : MMapBuilderState) (arr : List Int) : MMapBuilderState :=
  { s with dataBytes := s.dataBytes ++ arr.flatMap (fun v => leEnc 2 v.toNat),
           sizes := s.sizes ++ [arr.length] }

/-- `end_document`: checkpoint the current item count. -/
def mmap_end_document (s : MMapBuilderState) : MMapBuilderState :=
  { s with doc_idx := s.doc_idx ++ [s.sizes.length] }

/-- One Phase-2 epoch: for each shuffled ordinal, fetch the document and
append it as one item followed by a document boundary. A reader failure
propagates (`none`): Phase 2 has no exception handler. -/
def phase2Epoch (r : Reader) : MMapBuilderState → List Nat → Option MMapBuilderState
  | s, [] => some s
  | s, i :: rest => do
      let tokens ← get_doc_tokens r (i : Int)
      phase2Epoch r (mmap_end_document (mmap_add_item s tokens)) rest

/-- The Phase-2 loop over all epochs' permutations. -/
def phase2 (r : Reader) : MMapBuilderState → List (List Nat) → Option MMapBuilderState
  | s, [] => some s
  | s, perm :: ps => do
      let s' ← phase2Epoch r s perm
      phase2 r s' ps

/-! ## The Phase-1 loop of `process_data`

The codec is the external `TRIE_TOKENIZER`, abstracted as functions:
`parse` models `json.loads(line)["text"]` (`none` when it raises), `enc`
models `tokenizer.encode`, `dec` models `tokenizer.decode` (`none` when it
raises). The `try`/`except` around the loop body catches any failure —
including one raised inside `add_tokens` — and moves to the next line. -/

/-- One iteration of the Phase-1 `for line in f` loop.
`if not line.strip(): continue` skips a line exactly when every character is
whitespace, which is how the guard is modelled. -/
def phase1Step (parse : String → Option String) (enc : String → List Int)
    (dec : List Int → Option String) (s : BuilderState) (line : String) :
    BuilderState :=
  if line.toList.all Char.isWhitespace then s
  else
    match parse line with
    | none => s
    | some text =>
      let tokens := enc text
      if dec tokens = some text then
        match add_tokens s (tokens ++ [0]) with
        | .ok s' => s'
        | .error _ => s
      else s

/-- The whole Phase-1 loop. -/
def phase1 (parse : String → Option String) (enc : String → List Int)
    (dec : List Int → Option String) (s : BuilderState) (lines : List String) :
    BuilderState :=
  lines.foldl (phase1Step parse enc dec) s

/-- The spec's admission rule, written from its words: a line's text is
cached iff the line is non-blank, parses with a `"text"` field, and
round-trips through the codec; the cached sequence is `enc text ++ [0]`. -/
def specCachedDocs (parse : String → Option String) (enc : String → List Int)
    (dec : List Int → Option String) (lines : List String) : List (List Int) :=
  lines.filterMap (fun line =>
    if line.toList.all Char.isWhitespace then none
    else match parse line with
      | none => none
      | some text =>
        if dec (enc text) = some text then some (enc text ++ [0]) else none)

/-! ## Derived forms used by the statements -/

/-- The byte encoding of one document's tokens (uint16 little-endian). -/
def encTokens (d : List Int) : List Nat := d.flatMap (fun t => leEnc 2 t.toNat)

/-- The token-file contents after appending `docs`. -/
def encDocs (docs : List (List Int)) : List Nat := docs.flatMap encTokens

/-- The offset records produced for `docs` starting at offset `start`. -/
def offsetRecords (start : Nat) : List (List Int) → List (Nat × Nat)
  | [] => []
  | d :: ds => (start, d.length) :: offsetRecords (start + d.length) ds

/-- The offset-file bytes for a record list. -/
def recBytes (recs : List (Nat × Nat)) : List Nat :=
  recs.flatMap (fun p => leEnc 8 p.1 ++ leEnc 4 p.2)

/-- Total symbol count of a document list. -/
def totalLen (docs : List (List Int)) : Nat := (docs.map List.length).sum

/-- `add_tokens` as called inside the Phase-1 `try`: an exception is caught
and the state rolls on unchanged. -/
def add_tokens_caught (s : BuilderState) (tokens : List Int) : BuilderState :=
  match add_tokens s tokens with
  | .ok s' => s'
  | .error _ => s

/-! ## Basic lemmas on the byte encoders -/

theorem leEnc_length (w n : Nat) : (leEnc w n).length = w := by
  induction w generalizing n with
  | zero => rfl
  | succ w ih => simp [leEnc, ih]

theorem leDec_leEnc (w n : Nat) (h : n < 256 ^ w) : leDec (leEnc w n) = n := by
  induction w generalizing n with
  | zero => simp at h; simp [leEnc, leDec, h]
  | succ w ih =>
    have hdiv : n / 256 < 256 ^ w := by
      rw [Nat.div_lt_iff_lt_mul (by norm_num)]
      calc n < 256 ^ (w + 1) := h
      _ = 256 ^ w * 256 := by ring
    simp [leEnc, leDec, ih _ hdiv]
    omega

theorem packH_eq_some (tokens : List Int) (h : ∀ t ∈ tokens, 0 ≤ t ∧ t ≤ 65535) :
    packH tokens = some (encTokens tokens) := by
  induction tokens with
  | nil => rfl
  | cons t ts ih =>
    have ht := h t (by simp)
    have hts := ih (fun x hx => h x (by simp [hx]))
    simp [packH, packH1, ht.1, ht.2, hts, encTokens]

theorem packH_eq_none (tokens : List Int) (h : ∃ t ∈ tokens, t < 0 ∨ 65535 < t) :
    packH tokens = none := by
  induction tokens with
  | nil => simp at h
  | cons t ts ih =>
    rcases h with ⟨x, hx, hrange⟩
    rcases List.mem_cons.mp hx with rfl | hmem
    · have : ¬ (0 ≤ x ∧ x ≤ 65535) := by omega
      simp [packH, packH1, this]
    · have := ih ⟨x, hmem, hrange⟩
      simp [packH, this]

theorem encTokens_length (d : List Int) : (encTokens d).length = 2 * d.length := by
  induction d with
  | nil => rfl
  | cons t ts ih =>
    simp [encTokens, List.flatMap_cons, leEnc_length] at ih ⊢
    omega

theorem packQI_eq_some (off len : Nat) (ho : off < 2 ^ 64) (hl : len < 2 ^ 32) :
    packQI off len = some (leEnc 8 off ++ leEnc 4 len) := by
  unfold packQI
  split
  · rfl
  · omega

theorem add_tokens_ok (s : BuilderState) (tokens : List Int)
    (hr : ∀ t ∈ tokens, 0 ≤ t ∧ t ≤ 65535)
    (ho : s.current_offset < 2 ^ 64) (hl : tokens.length < 2 ^ 32) :
    add_tokens s tokens = Except.ok
      { tokenBytes := s.tokenBytes ++ encTokens tokens,
        offsetBytes := s.offsetBytes ++ (leEnc 8 s.current_offset ++ leEnc 4 tokens.length),
        current_offset := s.current_offset + tokens.length,
        doc_count := s.doc_count + 1 } := by
  unfold add_tokens
  rw [packH_eq_some tokens hr]
  simp only []
  rw [packQI_eq_some _ _ ho hl]

/-- C5 — Validity-probe equivalence: `check_temp_files` returns `true` iff
both cache files exist, the offset file holds at least one complete 12-byte
record, and the token stream holds at least `2 * length` bytes for the first
record's declared `length`; being a total function it never raises, and a
missing or empty pair yields `false`. -/
theorem check_temp_files_iff (tok off : Option (List Nat)) :
    check_temp_files tok off = true ↔
      ∃ tb ob, tok = some tb ∧ off = some ob ∧ 12 ≤ ob.length ∧
        2 * (unpackQI (ob.take 12)).2 ≤ tb.length := by
  constructor
  · intro h
    match tok, off with
    | none, _ => simp [check_temp_files] at h
    | some tb, none => simp [check_temp_files] at h
    | some tb, some ob =>
      simp only [check_temp_files, List.length_take] at h
      split_ifs at h with h1 h2
      simp only [decide_eq_true_eq, List.length_take] at h
      exact ⟨tb, ob, rfl, rfl, by omega, by omega⟩
  · rintro ⟨tb, ob, rfl, rfl, h3, h4⟩
    simp only [check_temp_files, List.length_take]
    split_ifs with h1 h2
    · omega
    · omega
    · simp only [decide_eq_true_eq, List.length_take]
      omega

/-- C5 witness: a concrete one-record cache (one symbol of declared length 1,
stream of 2 bytes) passes the probe. -/
theorem check_temp_files_iff_witness :
    check_temp_files (some [7, 0]) (some (leEnc 8 0 ++ leEnc 4 1)) = true :=
  (check_temp_files_iff (some [7, 0]) (some (leEnc 8 0 ++ leEnc 4 1))).mpr
    ⟨[7, 0], leEnc 8 0 ++ leEnc 4 1, rfl, rfl, by decide, by decide⟩

/-- C9 — Insufficient-data non-result: when the total symbol count is below
`context_length * 3`, the magic-prime computation evaluates to `none` — an
explicit non-result of the (total) function, not a failure. -/
theorem magicPrime_insufficient (total ctx : Nat) (h : total < ctx * 3) :
    magicPrime total ctx = none := by
  unfold magicPrime
  rw [if_neg]
  omega

/-- C9 witness: the spec's concrete example, 1000 symbols at context 4096. -/
theorem magicPrime_insufficient_witness : magicPrime 1000 4096 = none :=
  magicPrime_insufficient 1000 4096 (by decide)

/-- C10 — Failed append is atomic: a token outside `[0, 65535]` makes
`struct.pack` raise before any byte is written, so `add_tokens` reports the
exception and the caught call leaves the builder state — both files'
contents, `current_offset` and `doc_count` — exactly as before. -/
theorem add_tokens_range_atomic (s : BuilderState) (tokens : List Int)
    (h : ∃ t ∈ tokens, t < 0 ∨ 65535 < t) :
    add_tokens s tokens = Except.error () ∧ add_tokens_caught s tokens = s := by
  have hp : packH tokens = none := packH_eq_none tokens h
  have h1 : add_tokens s tokens = Except.error () := by
    unfold add_tokens
    rw [hp]
  exact ⟨h1, by simp [add_tokens_caught, h1]⟩

/-- C10 witness: appending `[70000]` to a fresh builder raises and leaves the
state untouched. -/
theorem add_tokens_range_atomic_witness :
    add_tokens BuilderState.init [70000] = Except.error () ∧
      add_tokens_caught BuilderState.init [70000] = BuilderState.init :=
  add_tokens_range_atomic BuilderState.init [70000] (by decide)

/-- C7 counterexample: a reader over one document `[5]` returns that
document's data at ordinal `-1` instead of failing — Python list indexing
resolves negative ordinals, so the claim's "negative ordinals must fail" is
false on the code. -/
theorem get_doc_tokens_negative_counterexample :
    get_doc_tokens ⟨[(0, 1)], [5, 0]⟩ (-1) = some [5] ∧
      Reader.len ⟨[(0, 1)], [5, 0]⟩ = 1 := by
  constructor
  · rfl
  · rfl

/-- C7 amended — Reader range checking: `get_doc_tokens` fails (raises
`IndexError`, modelled `none`) exactly for ordinals `≥ document_count` or
`< -document_count`; a negative ordinal in `[-document_count, 0)` does not
fail but resolves, Python-style, to document `document_count + ordinal`. -/
theorem get_doc_tokens_range (r : Reader) (i : Int) :
    (((r.doc_offsets.length : Int) ≤ i ∨ i < -(r.doc_offsets.length : Int)) →
      get_doc_tokens r i = none) ∧
    (-(r.doc_offsets.length : Int) ≤ i → i < 0 →
      get_doc_tokens r i = get_doc_tokens r ((r.doc_offsets.length : Int) + i)) := by
  constructor
  · intro h
    have hpy : pyGet r.doc_offsets i = none := by
      unfold pyGet
      split_ifs with h0 h1
      · apply List.get?_eq_none.mpr
        omega
      · exfalso
        omega
      · rfl
    simp [get_doc_tokens, hpy]
  · intro h1 h2
    have hpy : pyGet r.doc_offsets i =
        pyGet r.doc_offsets ((r.doc_offsets.length : Int) + i) := by
      unfold pyGet
      split_ifs <;> first | rfl | (exfalso; omega) | (congr 1; omega)
    simp [get_doc_tokens, hpy]

/-- C7 amended witness: on the one-document reader, ordinal 2 fails and
ordinal `-1` equals ordinal `1 + -1 = 0`. -/
theorem get_doc_tokens_range_witness :
    get_doc_tokens ⟨[(0, 1)], [5, 0]⟩ 2 = none ∧
      get_doc_tokens ⟨[(0, 1)], [5, 0]⟩ (-1) =
        get_doc_tokens ⟨[(0, 1)], [5, 0]⟩ ((1 : Int) + -1) :=
  ⟨(get_doc_tokens_range ⟨[(0, 1)], [5, 0]⟩ 2).1 (by decide),
   (get_doc_tokens_range ⟨[(0, 1)], [5, 0]⟩ (-1)).2 (by decide) (by decide)⟩

/-- C8 counterexample: two distinct vocabulary files whose names share a stem
(`a/vocab.txt` and `b/vocab.txt`) derive the same cache identity, so one
run's resumability check accepts the other's cache — the claim fails for
"any two distinct custom vocabulary files". -/
theorem temp_name_collision :
    deriveTempName "demo.jsonl" (some "a/vocab.txt") =
      deriveTempName "demo.jsonl" (some "b/vocab.txt") ∧
      ("a/vocab.txt" : String) ≠ "b/vocab.txt" := by
  constructor
  · rfl
  · decide

/-- C8 amended — Cache identity separates vocabularies up to stems: a
default-vocabulary run never shares a cache identity with a custom one, and
two custom vocabulary files with different stems get different identities;
only distinct files with equal stems collide. -/
theorem temp_name_separates (in_file v v1 v2 : String) :
    deriveTempName in_file none ≠ deriveTempName in_file (some v) ∧
    (pathStem v1 ≠ pathStem v2 →
      deriveTempName in_file (some v1) ≠ deriveTempName in_file (some v2)) := by
  constructor
  · intro h
    unfold deriveTempName at h
    have h' := congrArg String.length h
    simp only [String.length_append] at h'
    have e1 : ("_temp" : String).length = 5 := rfl
    have e2 : ("_temp_" : String).length = 6 := rfl
    omega
  · intro hne h
    unfold deriveTempName at h
    apply hne
    have h' := congrArg String.data h
    simp only [String.data_append] at h'
    exact String.ext (List.append_cancel_left h')

/-- C8 amended witness: stems `a` and `b` differ, so the identities differ. -/
theorem temp_name_separates_witness :
    deriveTempName "demo.jsonl" (some "a.txt") ≠
      deriveTempName "demo.jsonl" (some "b.txt") :=
  (temp_name_separates "demo.jsonl" "x" "a.txt" "b.txt").2 (by decide)

/-! ## Correctness of `is_prime` -/

theorem trialLoop_of_prime (n : Nat) (hp : Nat.Prime n) :
    ∀ i, 2 ≤ i → trialLoop n i = true := by
  have key : ∀ m i, 2 ≤ i → n + 2 - i ≤ m → trialLoop n i = true := by
    intro m
    induction m with
    | zero =>
      intro i hi hm
      rw [trialLoop, if_neg]
      intro hii
      have h1 : i ≤ i * i := Nat.le_mul_of_pos_left i (by omega)
      omega
    | succ m ih =>
      intro i hi hm
      rw [trialLoop]
      split
      · rename_i hii
        rw [if_neg]
        · exact ih (i + 6) (by omega) (by omega)
        · rintro (hmod | hmod)
          · have hdvd : i ∣ n := Nat.dvd_of_mod_eq_zero hmod
            rcases (hp.eq_one_or_self_of_dvd i hdvd) with h | h
            · omega
            · have : i < i * i := by nlinarith
              omega
          · have hdvd : (i + 2) ∣ n := Nat.dvd_of_mod_eq_zero hmod
            rcases (hp.eq_one_or_self_of_dvd (i + 2) hdvd) with h | h
            · omega
            · -- n = i + 2 together with i * i ≤ n forces i = 2, n = 4, not prime
              have hi2 : i = 2 := by nlinarith
              rw [← h, hi2] at hp
              norm_num at hp
      · rfl
  exact fun i hi => key (n + 2 - i) i hi le_rfl

theorem trialLoop_no_divisor :
    ∀ m i n, n + 2 - i ≤ m → i % 6 = 5 → trialLoop n i = true →
      ∀ d, i ≤ d → d * d ≤ n → d % 2 ≠ 0 → d % 3 ≠ 0 → ¬ d ∣ n := by
  intro m
  induction m with
  | zero =>
    intro i n hm h6 hloop d hid hdd h2 h3 hdvd
    have h1 : d ≤ d * d := Nat.le_mul_of_pos_left d (by omega)
    omega
  | succ m ih =>
    intro i n hm h6 hloop d hid hdd h2 h3 hdvd
    have hii : i * i ≤ n := le_trans (Nat.mul_le_mul hid hid) hdd
    rw [trialLoop, if_pos hii] at hloop
    split_ifs at hloop with hc
    push_neg at hc
    rcases Nat.lt_or_ge d (i + 6) with hlt | hge
    · -- d ∈ {i, i+2} by the mod-6 constraints; both were tested
      have hd6 : d % 6 = 1 ∨ d % 6 = 5 := by omega
      have : d = i ∨ d = i + 2 := by omega
      rcases this with rfl | rfl
      · exact hc.1 (Nat.mod_eq_zero_of_dvd hdvd)
      · exact hc.2 (Nat.mod_eq_zero_of_dvd hdvd)
    · exact ih (i + 6) n (by omega) (by omega) hloop d hge hdd h2 h3 hdvd


theorem is_prime_iff (n : Nat) : is_prime n = true ↔ Nat.Prime n := by
  constructor
  · intro h
    unfold is_prime at h
    split_ifs at h with h1 h2 h3
    · have : n = 2 ∨ n = 3 := by omega
      rcases this with rfl | rfl
      · norm_num
      · norm_num
    · push_neg at h3
      rw [Nat.prime_def_le_sqrt]
      refine ⟨by omega, fun m hm hsqrt hdvd => ?_⟩
      have hmm : m * m ≤ n := Nat.le_sqrt.mp hsqrt
      by_cases hm2 : m % 2 = 0
      · have hd : (2 : Nat) ∣ n := dvd_trans (Nat.dvd_of_mod_eq_zero hm2) hdvd
        have := Nat.mod_eq_zero_of_dvd hd
        omega
      by_cases hm3 : m % 3 = 0
      · have hd : (3 : Nat) ∣ n := dvd_trans (Nat.dvd_of_mod_eq_zero hm3) hdvd
        have := Nat.mod_eq_zero_of_dvd hd
        omega
      have hm5 : 5 ≤ m := by omega
      exact trialLoop_no_divisor n 5 n (by omega) (by norm_num) h m hm5 hmm hm2 hm3 hdvd
  · intro hp
    unfold is_prime
    split_ifs with h1 h2 h3
    · exact absurd hp.two_le (by omega)
    · rfl
    · exfalso
      rcases h3 with hm | hm
      · have hd : (2 : Nat) ∣ n := Nat.dvd_of_mod_eq_zero hm
        rcases hp.eq_one_or_self_of_dvd 2 hd with h | h <;> omega
      · have hd : (3 : Nat) ∣ n := Nat.dvd_of_mod_eq_zero hm
        rcases hp.eq_one_or_self_of_dvd 3 hd with h | h <;> omega
    · exact trialLoop_of_prime n hp 5 (by omega)

theorem scanDown_finds :
    ∀ start p : Nat, start % 3 = 2 → is_prime p = true → p ≤ start → p % 3 = 2 →
      (∀ q, q ≤ start → q % 3 = 2 → is_prime q = true → q ≤ p) →
      scanDown start = some p := by
  intro start
  induction start using Nat.strong_induction_on with
  | _ start ih =>
    intro p hs hp hple hp3 hmax
    rw [scanDown, if_neg (by omega)]
    by_cases hsp : is_prime start = true
    · rw [if_pos hsp]
      have h1 := hmax start le_rfl hs hsp
      have : start = p := by omega
      rw [this]
    · rw [if_neg hsp]
      have hpne : p ≠ start := fun he => hsp (he ▸ hp)
      have hs2 : start ≠ 2 := by
        intro he
        subst he
        exact hsp (by decide)
      exact ih (start - 3) (by omega) p (by omega) hp (by omega) hp3
        (fun q hq hq3 hqp => hmax q (by omega) hq3 hqp)

/-- C3 — Magic-prime characterization: under the data-sufficiency guard, the
scan returns the largest prime `p ≤ chunk_count` with `p ≡ 2 (mod 3)`,
whenever such a prime exists (`chunk_count = total / ctx - 1`). -/
theorem magic_prime_characterization (total ctx p : Nat) (hctx : 1 ≤ ctx)
    (htot : ctx * 3 ≤ total) (hp : Nat.Prime p) (hp3 : p % 3 = 2)
    (hple : p ≤ total / ctx - 1)
    (hmax : ∀ q, q ≤ total / ctx - 1 → q % 3 = 2 → Nat.Prime q → q ≤ p) :
    magicPrime total ctx = some p := by
  have hchunk : 3 ≤ total / ctx := by
    rw [Nat.le_div_iff_mul_le (by omega)]
    omega
  unfold magicPrime
  rw [if_pos (by omega)]
  show scanDown ((total / ctx - 1) - ((total / ctx - 1) - 2) % 3) = some p
  apply scanDown_finds _ p (by omega) ((is_prime_iff p).mpr hp) (by omega) hp3
  intro q hq hq3 hqp
  exact hmax q (by omega) hq3 ((is_prime_iff q).mp hqp)

/-- C3 witness: 1,000,000 symbols at context 4096 give `chunk_count = 243`
and magic prime 239 (the largest prime `≤ 243` that is `2 mod 3`). -/
theorem magic_prime_characterization_witness :
    magicPrime 1000000 4096 = some 239 :=
  magic_prime_characterization 1000000 4096 239 (by norm_num) (by norm_num)
    (by norm_num) (by norm_num) (by norm_num)
    (fun q hq hq3 hqp => by
      by_contra hgt
      push_neg at hgt
      have hq242 : q = 242 := by omega
      subst hq242
      norm_num at hqp)


/-! ## Characterizing a successful builder run -/

theorem totalLen_cons (d : List Int) (ds : List (List Int)) :
    totalLen (d :: ds) = d.length + totalLen ds := by
  simp [totalLen]

theorem encDocs_cons (d : List Int) (ds : List (List Int)) :
    encDocs (d :: ds) = encTokens d ++ encDocs ds := by
  simp [encDocs]

theorem runBuilder_cons_ok (s s' : BuilderState) (d : List Int)
    (ds : List (List Int)) (h : add_tokens s d = Except.ok s') :
    runBuilder s (d :: ds) = runBuilder s' ds := by
  rw [runBuilder, h]

theorem runBuilder_ok (docs : List (List Int)) : ∀ s : BuilderState,
    (∀ d ∈ docs, ∀ t ∈ d, 0 ≤ t ∧ t ≤ 65535) →
    (∀ d ∈ docs, d.length < 2 ^ 32) →
    s.current_offset + totalLen docs < 2 ^ 64 →
    runBuilder s docs = Except.ok
      { tokenBytes := s.tokenBytes ++ encDocs docs,
        offsetBytes := s.offsetBytes ++ recBytes (offsetRecords s.current_offset docs),
        current_offset := s.current_offset + totalLen docs,
        doc_count := s.doc_count + docs.length } := by
  induction docs with
  | nil =>
    intro s _ _ _
    simp [runBuilder, encDocs, recBytes, offsetRecords, totalLen]
  | cons d ds ih =>
    intro s hr hlen htot
    rw [totalLen_cons] at htot
    have hstep := add_tokens_ok s d (hr d (by simp)) (by omega) (hlen d (by simp))
    rw [runBuilder_cons_ok s _ d ds hstep]
    rw [ih _ (fun d' hd' => hr d' (by simp [hd'])) (fun d' hd' => hlen d' (by simp [hd']))
      (by show s.current_offset + d.length + totalLen ds < 2 ^ 64; omega)]
    simp only [Except.ok.injEq, BuilderState.mk.injEq]
    refine ⟨?_, ?_, ?_, ?_⟩
    · simp [encDocs_cons, List.append_assoc]
    · simp [recBytes, offsetRecords, List.append_assoc]
    · rw [totalLen_cons]
      omega
    · simp only [List.length_cons]
      omega

theorem unpackQI_leEnc (x y : Nat) (hx : x < 2 ^ 64) (hy : y < 2 ^ 32) :
    unpackQI (leEnc 8 x ++ leEnc 4 y) = (x, y) := by
  have e8 : (256 : Nat) ^ 8 = 2 ^ 64 := by norm_num
  have e4 : (256 : Nat) ^ 4 = 2 ^ 32 := by norm_num
  unfold unpackQI
  rw [List.take_left' (leEnc_length 8 x), List.drop_left' (leEnc_length 8 x)]
  rw [List.take_of_length_le (by rw [leEnc_length])]
  rw [leDec_leEnc 8 x (by rw [e8]; exact hx), leDec_leEnc 4 y (by rw [e4]; exact hy)]

theorem parseOffsets_recBytes (recs : List (Nat × Nat))
    (h : ∀ q ∈ recs, q.1 < 2 ^ 64 ∧ q.2 < 2 ^ 32) :
    parseOffsets (recBytes recs) = some recs := by
  induction recs with
  | nil => simp [parseOffsets, recBytes]
  | cons q rs ih =>
    have hq := h q (by simp)
    have hlen12 : (leEnc 8 q.1 ++ leEnc 4 q.2).length = 12 := by
      simp [leEnc_length]
    have hrb : recBytes (q :: rs) = (leEnc 8 q.1 ++ leEnc 4 q.2) ++ recBytes rs := by
      simp [recBytes]
    have hne : (leEnc 8 q.1 ++ leEnc 4 q.2) ++ recBytes rs ≠ [] := by
      intro he
      have hlen := congrArg List.length he
      rw [List.length_append, hlen12] at hlen
      simp at hlen
    rw [hrb, parseOffsets, dif_neg hne,
      if_neg (by rw [List.length_append, hlen12]; omega)]
    rw [List.drop_left' hlen12, List.take_left' hlen12]
    rw [ih (fun q' hq' => h q' (by simp [hq']))]
    simp [unpackQI_leEnc q.1 q.2 hq.1 hq.2]

theorem offsetRecords_length (start : Nat) (docs : List (List Int)) :
    (offsetRecords start docs).length = docs.length := by
  induction docs generalizing start with
  | nil => simp [offsetRecords]
  | cons d ds ih => simp [offsetRecords, ih]

theorem offsetRecords_map_snd (start : Nat) (docs : List (List Int)) :
    (offsetRecords start docs).map Prod.snd = docs.map List.length := by
  induction docs generalizing start with
  | nil => simp [offsetRecords]
  | cons d ds ih => simp [offsetRecords, ih]

theorem offsetRecords_take (start : Nat) (docs : List (List Int)) :
    ∀ i, (offsetRecords start docs).take i = offsetRecords start (docs.take i) := by
  induction docs generalizing start with
  | nil => intro i; simp [offsetRecords]
  | cons d ds ih =>
    intro i
    cases i with
    | zero => simp [offsetRecords]
    | succ i => simp [offsetRecords, ih]

theorem offsetRecords_get? (docs : List (List Int)) :
    ∀ (start i : Nat), i < docs.length →
      (offsetRecords start docs).get? i =
        some (start + totalLen (docs.take i), (docs.getD i []).length) := by
  induction docs with
  | nil => intro start i h; simp at h
  | cons d ds ih =>
    intro start i h
    cases i with
    | zero => simp [offsetRecords, totalLen]
    | succ i =>
      have hh : i < ds.length := by simpa using h
      rw [show offsetRecords start (d :: ds)
          = (start, d.length) :: offsetRecords (start + d.length) ds from rfl]
      rw [List.get?_cons_succ, ih (start + d.length) i hh]
      simp [totalLen, Nat.add_assoc]

theorem offsetRecords_mem_bound (docs : List (List Int)) :
    ∀ start, ∀ q ∈ offsetRecords start docs,
      q.1 + q.2 ≤ start + totalLen docs ∧ ∃ d ∈ docs, q.2 = d.length := by
  induction docs with
  | nil => intro start q hq; simp [offsetRecords] at hq
  | cons d ds ih =>
    intro start q hq
    rw [show offsetRecords start (d :: ds)
        = (start, d.length) :: offsetRecords (start + d.length) ds from rfl] at hq
    rcases List.mem_cons.mp hq with rfl | hq
    · refine ⟨by rw [totalLen_cons]; omega, d, by simp, rfl⟩
    · rcases ih (start + d.length) q hq with ⟨h1, d', hd', h2⟩
      exact ⟨by rw [totalLen_cons]; omega, d', by simp [hd'], h2⟩

theorem getLast?_cons_ne {α : Type} (a : α) (l : List α) (h : l ≠ []) :
    (a :: l).getLast? = l.getLast? := by
  cases l with
  | nil => exact absurd rfl h
  | cons b bs => rfl

theorem offsetRecords_getLast (docs : List (List Int)) :
    ∀ start, docs ≠ [] →
      ∃ q, (offsetRecords start docs).getLast? = some q ∧
        q.1 + q.2 = start + totalLen docs := by
  induction docs with
  | nil => intro start h; exact absurd rfl h
  | cons d ds ih =>
    intro start _
    cases ds with
    | nil =>
      refine ⟨(start, d.length), rfl, ?_⟩
      simp [totalLen]
    | cons e es =>
      rcases ih (start + d.length) (by simp) with ⟨q, hq1, hq2⟩
      refine ⟨q, ?_, ?_⟩
      · rw [show offsetRecords start (d :: e :: es)
            = (start, d.length) :: offsetRecords (start + d.length) (e :: es) from rfl]
        rw [getLast?_cons_ne _ _ (by
          intro he
          have := congrArg List.length he
          rw [offsetRecords_length] at this
          simp at this)]
        exact hq1
      · simp only [totalLen_cons] at hq2 ⊢
        omega


theorem drop_append_left {α : Type} (l₁ l₂ : List α) (k : Nat) :
    (l₁ ++ l₂).drop (l₁.length + k) = l₂.drop k := by
  induction l₁ with
  | nil => simp
  | cons a l ih => simpa [Nat.succ_add] using ih

theorem encDocs_window (docs : List (List Int)) :
    ∀ i, i < docs.length →
      ((encDocs docs).drop (2 * totalLen (docs.take i))).take
          (2 * (docs.getD i []).length)
        = encTokens (docs.getD i []) := by
  induction docs with
  | nil =>
    intro i h
    simp at h
  | cons d ds ih =>
    intro i h
    cases i with
    | zero =>
      simp only [List.take_zero, totalLen, List.map_nil, List.sum_nil,
        Nat.mul_zero, List.drop_zero, List.getD_cons_zero, encDocs_cons]
      exact List.take_left' (encTokens_length d)
    | succ i =>
      have hh : i < ds.length := by simpa using h
      rw [List.take_succ_cons, totalLen_cons, List.getD_cons_succ, encDocs_cons]
      rw [Nat.mul_add]
      rw [show (2 : Nat) * d.length = (encTokens d).length from (encTokens_length d).symm]
      rw [drop_append_left]
      exact ih i hh

theorem decode16s_encTokens (d : List Int) (h : ∀ t ∈ d, 0 ≤ t ∧ t ≤ 65535) :
    decode16s (encTokens d) = some d := by
  induction d with
  | nil => rfl
  | cons t ts ih =>
    have ht := h t (by simp)
    have henc : encTokens (t :: ts)
        = t.toNat % 256 :: t.toNat / 256 % 256 :: encTokens ts := by
      simp [encTokens, leEnc]
    rw [henc]
    simp [decode16s, ih (fun x hx => h x (by simp [hx]))]
    omega

/-- C1 — Token-cache offset-index invariant: after any successful sequence of
`add_tokens` calls, the offset file decodes to records whose `i`-th offset is
the sum of the lengths of records `0..i-1`; `finalize` returns the document
count paired with the sum of all recorded lengths, which also equals the last
record's `offset + length`. -/
theorem token_cache_offset_invariant (docs : List (List Int))
    (hr : ∀ d ∈ docs, ∀ t ∈ d, 0 ≤ t ∧ t ≤ 65535)
    (hlen : ∀ d ∈ docs, d.length < 2 ^ 32)
    (htot : totalLen docs < 2 ^ 64) :
    ∃ s recs, runBuilder BuilderState.init docs = Except.ok s ∧
      parseOffsets s.offsetBytes = some recs ∧
      (∀ i, (h : i < recs.length) →
        (recs.get ⟨i, h⟩).1 = ((recs.take i).map Prod.snd).sum) ∧
      finalize s = (docs.length, (recs.map Prod.snd).sum) ∧
      ∀ q ∈ recs.getLast?, q.1 + q.2 = (recs.map Prod.snd).sum := by
  have hrun := runBuilder_ok docs BuilderState.init hr hlen
    (by show 0 + totalLen docs < 2 ^ 64; omega)
  have hsum : ((offsetRecords 0 docs).map Prod.snd).sum = totalLen docs := by
    rw [offsetRecords_map_snd]
    rfl
  refine ⟨_, offsetRecords 0 docs, hrun, ?_, ?_, ?_, ?_⟩
  · show parseOffsets ([] ++ recBytes (offsetRecords 0 docs)) = _
    rw [List.nil_append]
    apply parseOffsets_recBytes
    intro q hq
    rcases offsetRecords_mem_bound docs 0 q hq with ⟨h1, d, hd, h2⟩
    exact ⟨by omega, by rw [h2]; exact hlen d hd⟩
  · intro i h
    have hi : i < docs.length := by rwa [offsetRecords_length] at h
    have h1 := offsetRecords_get? docs 0 i hi
    have h2 : (offsetRecords 0 docs).get? i
        = some ((offsetRecords 0 docs).get ⟨i, h⟩) := List.get?_eq_get h
    rw [h1] at h2
    have h3 : (offsetRecords 0 docs).get ⟨i, h⟩
        = (0 + totalLen (docs.take i), (docs.getD i []).length) := by
      injection h2 with h2'
      exact h2'.symm
    rw [h3, offsetRecords_take, offsetRecords_map_snd]
    show 0 + totalLen (docs.take i) = ((docs.take i).map List.length).sum
    simp [totalLen]
  · show (0 + docs.length, 0 + totalLen docs)
        = (docs.length, ((offsetRecords 0 docs).map Prod.snd).sum)
    rw [hsum]
    simp
  · intro q hq
    rcases eq_or_ne docs [] with rfl | hne
    · simp [offsetRecords, Option.mem_def] at hq
    · rcases offsetRecords_getLast docs 0 hne with ⟨q', hq1, hq2⟩
      rw [Option.mem_def, hq1, Option.some.injEq] at hq
      rw [hsum, ← hq]
      omega

/-- C1 witness: the two-document run `[[1, 2], [3]]`. -/
theorem token_cache_offset_invariant_witness :
    ∃ s recs, runBuilder BuilderState.init [[1, 2], [3]] = Except.ok s ∧
      parseOffsets s.offsetBytes = some recs ∧
      (∀ i, (h : i < recs.length) →
        (recs.get ⟨i, h⟩).1 = ((recs.take i).map Prod.snd).sum) ∧
      finalize s = ([[1, 2], [3]].length, (recs.map Prod.snd).sum) ∧
      ∀ q ∈ recs.getLast?, q.1 + q.2 = (recs.map Prod.snd).sum :=
  token_cache_offset_invariant [[1, 2], [3]] (by decide) (by decide) (by decide)

theorem get_doc_tokens_some (r : Reader) (i : Int) (off len : Nat)
    (hpy : pyGet r.doc_offsets i = some (off, len)) :
    get_doc_tokens r i
      = decode16s ((r.tokenBytes.drop (off * 2)).take (len * 2)) := by
  unfold get_doc_tokens
  rw [hpy]
  rfl

/-- Helper for C2/C4: a successful build of `docs` followed by opening a
reader on the same file contents yields a reader of length `docs.length`
whose `get_doc_tokens i` returns exactly `docs[i]`. -/
theorem reader_of_run (docs : List (List Int))
    (hr : ∀ d ∈ docs, ∀ t ∈ d, 0 ≤ t ∧ t ≤ 65535)
    (hlen : ∀ d ∈ docs, d.length < 2 ^ 32)
    (htot : totalLen docs < 2 ^ 64) :
    ∃ s r, runBuilder BuilderState.init docs = Except.ok s ∧
      openReader s.tokenBytes s.offsetBytes = some r ∧
      r.len = docs.length ∧
      ∀ i, (h : i < docs.length) →
        get_doc_tokens r (i : Int) = some (docs.get ⟨i, h⟩) := by
  have hrun := runBuilder_ok docs BuilderState.init hr hlen
    (by show 0 + totalLen docs < 2 ^ 64; omega)
  have hpo : parseOffsets (recBytes (offsetRecords 0 docs))
      = some (offsetRecords 0 docs) := by
    apply parseOffsets_recBytes
    intro q hq
    rcases offsetRecords_mem_bound docs 0 q hq with ⟨h1, d, hd, h2⟩
    exact ⟨by omega, by rw [h2]; exact hlen d hd⟩
  refine ⟨_, ⟨offsetRecords 0 docs, [] ++ encDocs docs⟩, hrun, ?_, ?_, ?_⟩
  · show openReader ([] ++ encDocs docs) ([] ++ recBytes (offsetRecords 0 docs)) = _
    simp [openReader, hpo]
  · show (offsetRecords 0 docs).length = docs.length
    exact offsetRecords_length 0 docs
  · intro i h
    have hpy : pyGet (offsetRecords 0 docs) (i : Int)
        = some (0 + totalLen (docs.take i), (docs.getD i []).length) := by
      unfold pyGet
      rw [if_pos (by exact_mod_cast Int.natCast_nonneg i)]
      rw [show ((i : Int)).toNat = i by simp]
      exact offsetRecords_get? docs 0 i h
    have hget : docs.getD i [] = docs.get ⟨i, h⟩ := by
      rw [List.getD_eq_getElem docs [] h]
      simp
    have hmem : docs.get ⟨i, h⟩ ∈ docs := List.get_mem docs i h
    rw [get_doc_tokens_some _ _ _ _ hpy]
    show decode16s ((([] ++ encDocs docs).drop ((0 + totalLen (docs.take i)) * 2)).take
        ((docs.getD i []).length * 2)) = some (docs.get ⟨i, h⟩)
    rw [List.nil_append, Nat.zero_add,
      Nat.mul_comm (totalLen (docs.take i)) 2,
      Nat.mul_comm (docs.getD i []).length 2]
    rw [encDocs_window docs i h, hget]
    exact decode16s_encTokens _ (fun t ht => hr _ hmem t ht)

/-- C2 — Builder-to-reader round trip: a successful build of `docs` followed
by opening a reader on the same file contents yields a reader of length
`docs.length` whose `get_doc_tokens i` returns exactly `docs[i]` for every
`i ∈ [0, docs.length)`. -/
theorem builder_reader_roundtrip (docs : List (List Int))
    (hr : ∀ d ∈ docs, ∀ t ∈ d, 0 ≤ t ∧ t ≤ 65535)
    (hlen : ∀ d ∈ docs, d.length < 2 ^ 32)
    (htot : totalLen docs < 2 ^ 64) :
    ∃ s r, runBuilder BuilderState.init docs = Except.ok s ∧
      openReader s.tokenBytes s.offsetBytes = some r ∧
      r.len = docs.length ∧
      ∀ i, (h : i < docs.length) →
        get_doc_tokens r (i : Int) = some (docs.get ⟨i, h⟩) :=
  reader_of_run docs hr hlen htot

/-- C2 witness: the run `[[1, 2, 0], [3, 0]]` reads back both documents. -/
theorem builder_reader_roundtrip_witness :
    ∃ s r, runBuilder BuilderState.init [[1, 2, 0], [3, 0]] = Except.ok s ∧
      openReader s.tokenBytes s.offsetBytes = some r ∧
      r.len = [[1, 2, 0], [3, 0]].length ∧
      ∀ i, (h : i < [[1, 2, 0], [3, 0]].length) →
        get_doc_tokens r (i : Int) = some ([[1, 2, 0], [3, 0]].get ⟨i, h⟩) :=
  builder_reader_roundtrip [[1, 2, 0], [3, 0]] (by decide) (by decide) (by decide)


/-! ## Phase 2: permutation-driven assembly -/

theorem phase2Epoch_cons (r : Reader) (s : MMapBuilderState) (i : Nat)
    (is : List Nat) (tokens : List Int)
    (h : get_doc_tokens r (i : Int) = some tokens) :
    phase2Epoch r s (i :: is)
      = phase2Epoch r (mmap_end_document (mmap_add_item s tokens)) is := by
  rw [phase2Epoch, h]
  rfl

theorem phase2_cons (r : Reader) (s s' : MMapBuilderState)
    (π : List Nat) (ps : List (List Nat)) (h : phase2Epoch r s π = some s') :
    phase2 r s (π :: ps) = phase2 r s' ps := by
  rw [phase2, h]
  rfl

theorem phase2Epoch_sizes (r : Reader) (docs : List (List Int))
    (hdocs : ∀ i, (h : i < docs.length) →
      get_doc_tokens r (i : Int) = some (docs.get ⟨i, h⟩)) :
    ∀ (π : List Nat), (∀ i ∈ π, i < docs.length) → ∀ s : MMapBuilderState,
      ∃ m, phase2Epoch r s π = some m ∧
        m.sizes = s.sizes ++ π.map (fun i => (docs.getD i []).length) := by
  intro π
  induction π with
  | nil =>
    intro _ s
    exact ⟨s, rfl, by simp⟩
  | cons i is ih =>
    intro hπ s
    have hi : i < docs.length := hπ i (by simp)
    rcases ih (fun j hj => hπ j (by simp [hj]))
      (mmap_end_document (mmap_add_item s (docs.get ⟨i, hi⟩))) with ⟨m, hm1, hm2⟩
    refine ⟨m, ?_, ?_⟩
    · rw [phase2Epoch_cons r s i is _ (hdocs i hi)]
      exact hm1
    · rw [hm2]
      have hgd : docs.getD i [] = docs.get ⟨i, hi⟩ := by
        rw [List.getD_eq_getElem docs [] hi]
        simp
      simp [mmap_add_item, mmap_end_document, hgd, List.append_assoc]
      simp [List.getElem?_eq_getElem hi]
  
theorem phase2_sizes (r : Reader) (docs : List (List Int))
    (hdocs : ∀ i, (h : i < docs.length) →
      get_doc_tokens r (i : Int) = some (docs.get ⟨i, h⟩)) :
    ∀ (perms : List (List Nat)), (∀ π ∈ perms, ∀ i ∈ π, i < docs.length) →
    ∀ s : MMapBuilderState,
      ∃ m, phase2 r s perms = some m ∧
        m.sizes = s.sizes
          ++ perms.flatMap (fun π => π.map (fun i => (docs.getD i []).length)) := by
  intro perms
  induction perms with
  | nil =>
    intro _ s
    exact ⟨s, rfl, by simp⟩
  | cons π ps ih =>
    intro hp s
    rcases phase2Epoch_sizes r docs hdocs π (hp π (by simp)) s with ⟨m1, hm1, hs1⟩
    rcases ih (fun π' hπ' => hp π' (by simp [hπ'])) m1 with ⟨m, hm2, hs2⟩
    refine ⟨m, ?_, ?_⟩
    · rw [phase2_cons r s m1 π ps hm1]
      exact hm2
    · rw [hs2, hs1]
      simp [List.append_assoc]

theorem sum_map_const {α : Type} (l : List α) (c : Nat) :
    (l.map (fun _ => c)).sum = l.length * c := by
  induction l with
  | nil => simp
  | cons x xs ih =>
    simp only [List.map_cons, List.sum_cons, List.length_cons, ih]
    ring

theorem sum_flatMap {α : Type} (l : List α) (f : α → List Nat) :
    (l.flatMap f).sum = (l.map fun a => (f a).sum).sum := by
  induction l with
  | nil => simp
  | cons x xs ih => simp [ih]

theorem length_flatMap' {α β : Type} (l : List α) (f : α → List β) :
    (l.flatMap f).length = (l.map fun a => (f a).length).sum := by
  induction l with
  | nil => simp
  | cons x xs ih => simp [ih]

theorem map_getD_range {α : Type} (l : List α) (d : α) :
    (List.range l.length).map (fun i => l.getD i d) = l := by
  induction l with
  | nil => simp
  | cons x xs ih =>
    rw [List.length_cons, List.range_succ_eq_map, List.map_cons, List.map_map]
    have he : ((fun i => (x :: xs).getD i d) ∘ Nat.succ) = fun i => xs.getD i d := by
      funext i
      simp
    rw [List.getD_cons_zero, he, ih]

theorem range_map_getD_length (docs : List (List Int)) :
    ((List.range docs.length).map (fun i => (docs.getD i []).length)).sum
      = totalLen docs := by
  have h1 : (List.range docs.length).map (fun i => (docs.getD i []).length)
      = ((List.range docs.length).map (fun i => docs.getD i [])).map List.length := by
    rw [List.map_map]
    rfl
  rw [h1, map_getD_range docs []]
  rfl

/-- C4 — Final dataset counts: running `n_epoch` permutation-driven epochs
over the cache of `docs` yields a final dataset whose item count is
`docs.length * n_epoch` and whose item lengths sum to
`n_epoch * totalLen docs`, every document appearing exactly once per epoch. -/
theorem final_dataset_counts (docs : List (List Int)) (perms : List (List Nat))
    (hr : ∀ d ∈ docs, ∀ t ∈ d, 0 ≤ t ∧ t ≤ 65535)
    (hlen : ∀ d ∈ docs, d.length < 2 ^ 32)
    (htot : totalLen docs < 2 ^ 64)
    (hperm : ∀ π ∈ perms, List.Perm π (List.range docs.length)) :
    ∃ s r m, runBuilder BuilderState.init docs = Except.ok s ∧
      openReader s.tokenBytes s.offsetBytes = some r ∧
      phase2 r MMapBuilderState.init perms = some m ∧
      m.sizes.length = perms.length * docs.length ∧
      m.sizes.sum = perms.length * totalLen docs := by
  rcases reader_of_run docs hr hlen htot with ⟨s, r, hrun, hopen, hrl, hdocs⟩
  have hmem : ∀ π ∈ perms, ∀ i ∈ π, i < docs.length := by
    intro π hπ i hi
    have := (hperm π hπ).mem_iff.mp hi
    simpa using this
  rcases phase2_sizes r docs hdocs perms hmem MMapBuilderState.init with ⟨m, hm1, hm2⟩
  have hsz : m.sizes
      = perms.flatMap (fun π => π.map (fun i => (docs.getD i []).length)) := by
    rw [hm2]
    rfl
  have hmapeq : ∀ π ∈ perms,
      (π.map (fun i => (docs.getD i []).length)).sum = totalLen docs := by
    intro π hπ
    rw [List.Perm.sum_eq ((hperm π hπ).map (fun i => (docs.getD i []).length))]
    exact range_map_getD_length docs
  refine ⟨s, r, m, hrun, hopen, hm1, ?_, ?_⟩
  · rw [hsz, length_flatMap']
    have : perms.map (fun π => (π.map fun i => (docs.getD i []).length).length)
        = perms.map (fun _ => docs.length) := by
      apply List.map_congr_left
      intro π hπ
      rw [List.length_map]
      exact (hperm π hπ).length_eq.trans (List.length_range docs.length)
    rw [this, sum_map_const]
  · rw [hsz, sum_flatMap]
    have : perms.map (fun π => (π.map fun i => (docs.getD i []).length).sum)
        = perms.map (fun _ => totalLen docs) := by
      apply List.map_congr_left
      intro π hπ
      exact hmapeq π hπ
    rw [this, sum_map_const]

/-- C4 witness: two epochs over the two-document cache `[[1, 0], [2, 3, 0]]`
with permutations `[1, 0]` and `[0, 1]`. -/
theorem final_dataset_counts_witness :
    ∃ s r m, runBuilder BuilderState.init [[1, 0], [2, 3, 0]] = Except.ok s ∧
      openReader s.tokenBytes s.offsetBytes = some r ∧
      phase2 r MMapBuilderState.init [[1, 0], [0, 1]] = some m ∧
      m.sizes.length = [[1, 0], [0, 1]].length * [[1, 0], [2, 3, 0]].length ∧
      m.sizes.sum = [[1, 0], [0, 1]].length * totalLen [[1, 0], [2, 3, 0]] :=
  final_dataset_counts [[1, 0], [2, 3, 0]] [[1, 0], [0, 1]]
    (by decide) (by decide) (by decide) (by decide)


/-! ## Phase 1: the admission rule -/

theorem phase1_cons (parse : String → Option String) (enc : String → List Int)
    (dec : List Int → Option String) (s : BuilderState) (line : String)
    (rest : List String) :
    phase1 parse enc dec s (line :: rest)
      = phase1 parse enc dec (phase1Step parse enc dec s line) rest := by
  rfl

theorem phase1_runBuilder (parse : String → Option String)
    (enc : String → List Int) (dec : List Int → Option String) :
    ∀ (lines : List String) (s : BuilderState),
      (∀ d ∈ specCachedDocs parse enc dec lines, ∀ t ∈ d, 0 ≤ t ∧ t ≤ 65535) →
      (∀ d ∈ specCachedDocs parse enc dec lines, d.length < 2 ^ 32) →
      s.current_offset + totalLen (specCachedDocs parse enc dec lines) < 2 ^ 64 →
      runBuilder s (specCachedDocs parse enc dec lines)
        = Except.ok (phase1 parse enc dec s lines) := by
  intro lines
  induction lines with
  | nil =>
    intro s _ _ _
    rfl
  | cons line rest ih =>
    intro s hr hlen htot
    by_cases hb : line.toList.all Char.isWhitespace
    · have hspec : specCachedDocs parse enc dec (line :: rest)
          = specCachedDocs parse enc dec rest := by
        simp only [specCachedDocs, List.filterMap_cons, hb, if_true]
      have hstep : phase1Step parse enc dec s line = s := by
        simp only [phase1Step, hb, if_true]
      rw [hspec] at hr hlen htot
      rw [hspec, phase1_cons, hstep]
      exact ih s hr hlen htot
    · cases hp : parse line with
      | none =>
        have hspec : specCachedDocs parse enc dec (line :: rest)
            = specCachedDocs parse enc dec rest := by
          simp only [specCachedDocs, List.filterMap_cons, hb, Bool.false_eq_true,
            if_false, hp]
        have hstep : phase1Step parse enc dec s line = s := by
          simp only [phase1Step, hb, Bool.false_eq_true, if_false, hp]
        rw [hspec] at hr hlen htot
        rw [hspec, phase1_cons, hstep]
        exact ih s hr hlen htot
      | some text =>
        by_cases hd : dec (enc text) = some text
        · have hspec : specCachedDocs parse enc dec (line :: rest)
              = (enc text ++ [0]) :: specCachedDocs parse enc dec rest := by
            simp only [specCachedDocs, List.filterMap_cons, hb, Bool.false_eq_true,
              if_false, hp, hd, if_true]
          rw [hspec] at hr hlen htot
          rw [totalLen_cons] at htot
          have hmem : (enc text ++ [0])
              ∈ (enc text ++ [0]) :: specCachedDocs parse enc dec rest := by
            simp
          have hadd := add_tokens_ok s (enc text ++ [0]) (hr _ hmem)
            (by omega) (hlen _ hmem)
          have hstep : phase1Step parse enc dec s line
              = { tokenBytes := s.tokenBytes ++ encTokens (enc text ++ [0]),
                  offsetBytes := s.offsetBytes
                    ++ (leEnc 8 s.current_offset ++ leEnc 4 (enc text ++ [0]).length),
                  current_offset := s.current_offset + (enc text ++ [0]).length,
                  doc_count := s.doc_count + 1 } := by
            simp only [phase1Step, hb, Bool.false_eq_true, if_false, hp, hd,
              if_true, hadd]
          rw [hspec, runBuilder_cons_ok s _ _ _ hadd, phase1_cons, hstep]
          exact ih _ (fun d hd' => hr d (by simp [hd'])) (fun d hd' => hlen d (by simp [hd']))
            (by show s.current_offset + (enc text ++ [0]).length + _ < 2 ^ 64; omega)
        · have hspec : specCachedDocs parse enc dec (line :: rest)
              = specCachedDocs parse enc dec rest := by
            simp only [specCachedDocs, List.filterMap_cons, hb, Bool.false_eq_true,
              if_false, hp, hd]
          have hstep : phase1Step parse enc dec s line = s := by
            simp only [phase1Step, hb, Bool.false_eq_true, if_false, hp, hd]
          rw [hspec] at hr hlen htot
          rw [hspec, phase1_cons, hstep]
          exact ih s hr hlen htot

/-- C6 — Cache admission: the Phase-1 loop caches a line's text exactly when
the line is non-blank, parses with a `"text"` field, and survives the
`decode(encode(text)) == text` round trip; every cached sequence is
`encode(text) ++ [0]`, a failing document is skipped without aborting, and a
round-trip-failing document is never stored: the builder run over the
spec-side admitted list reproduces the Phase-1 loop's final state exactly. -/
theorem cache_admission (parse : String → Option String)
    (enc : String → List Int) (dec : List Int → Option String)
    (lines : List String)
    (hr : ∀ d ∈ specCachedDocs parse enc dec lines, ∀ t ∈ d, 0 ≤ t ∧ t ≤ 65535)
    (hlen : ∀ d ∈ specCachedDocs parse enc dec lines, d.length < 2 ^ 32)
    (htot : totalLen (specCachedDocs parse enc dec lines) < 2 ^ 64) :
    runBuilder BuilderState.init (specCachedDocs parse enc dec lines)
      = Except.ok (phase1 parse enc dec BuilderState.init lines) :=
  phase1_runBuilder parse enc dec lines BuilderState.init hr hlen
    (by show 0 + totalLen (specCachedDocs parse enc dec lines) < 2 ^ 64; omega)

/-- C6 witness: a four-line input — one good document, one blank line, one
unparsable line, one round-trip failure — caches exactly `[1, 0]`. -/
theorem cache_admission_witness :
    runBuilder BuilderState.init
        (specCachedDocs
          (fun l => if l = "good" then some "G" else if l = "bad" then some "B" else none)
          (fun t => if t = "G" then [1] else [2])
          (fun ts => if ts = [1] then some "G" else none)
          ["good", "", "oops", "bad"])
      = Except.ok (phase1
          (fun l => if l = "good" then some "G" else if l = "bad" then some "B" else none)
          (fun t => if t = "G" then [1] else [2])
          (fun ts => if ts = [1] then some "G" else none)
          BuilderState.init ["good", "", "oops", "bad"]) :=
  cache_admission _ _ _ _ (by decide) (by decide) (by decide)

end MakeData
